import Mathlib

/-!
Verification of the goscreeps watcher.

Shallow embedding of `watcher/watcher.go`.

* Go strings are byte strings.  Every byte the program inspects (`.`, `/`,
  `j`, `s`) is ASCII, so a string is modelled as a list of characters.
* The Go standard-library functions the program calls (`filepath.Ext`,
  `strings.ReplaceAll`, `filepath.Clean`, `filepath.Join`, `filepath.WalkDir`,
  the `sync/atomic` operations) are embedded from their Unix behaviour.
* The file system and the HTTP endpoint are explicit arguments: a directory
  tree whose reads may fail, and a function from request to response.
* The two goroutines of `main` become one step function over the shared
  `needsUpdate` word; the order in which their `select` statements receive is
  the order of the input list.  The word is touched by atomic operations
  only, and `uploadCode` does not read it, so a write event that arrives
  while an upload is running acts as one received after that tick.  Each tick
  carries the file system and endpoint its upload cycle meets.
* Nothing in `main` sends on or closes `done`; the receives from it are kept
  in the step function, and runs of the program contain no such input.
-/

namespace Watcher

/-- Go `string`. -/
abbrev GoString := List Char

/-- Go `error` values met by the program. -/
inductive GoError where
  /-- An error produced outside the program: file system, network, watcher. -/
  | external (msg : GoString)
  /-- The value of `fmt.Errorf("could not upload the code: %d", status)`. -/
  | errorf (status : Int)
  /-- Method call on a nil `fs.DirEntry`. -/
  | nilDeref
  deriving DecidableEq, Repr

/-! ## Standard library: paths and strings -/

/-- Unix `os.IsPathSeparator`. -/
def IsPathSeparator (c : Char) : Bool := c == '/'

/-- Loop of `filepath.Ext`: `rev` holds `path[0..i]` reversed, `acc` holds
`path[i+1:]`. -/
def extLoop : List Char → List Char → GoString
  | [], _ => []
  | c :: rev, acc =>
    if IsPathSeparator c then []
    else if c == '.' then c :: acc
    else extLoop rev (c :: acc)

/-- Go `filepath.Ext`: the suffix beginning at the final dot in the final
element of `path`; empty if there is no dot. -/
def Ext (path : GoString) : GoString := extLoop path.reverse []

/-- Loop of `strings.Replace` with `n < 0` and non-empty `old`: `skip` counts
the bytes of a matched occurrence still to be dropped. -/
def replaceLoop (old new : GoString) : Nat → GoString → GoString
  | _, [] => []
  | k + 1, _ :: s => replaceLoop old new k s
  | 0, c :: s =>
    if old.isPrefixOf (c :: s) then new ++ replaceLoop old new (old.length - 1) s
    else c :: replaceLoop old new 0 s

/-- Go `strings.ReplaceAll`: all non-overlapping instances of `old`, leftmost
first, replaced by `new`.  An empty `old` matches before every character and
at the end. -/
def ReplaceAll (s old new : GoString) : GoString :=
  if old = new then s
  else if old = [] then new ++ s.flatMap (fun c => c :: new)
  else replaceLoop old new 0 s

/-- The `..` case of `filepath.Clean`: `out.w--` followed by the loop
`for out.w > dotdot && !IsPathSeparator(out.index(out.w))  out.w--`.
The argument is the buffer reversed up to and including the byte at index
`out.w`; the result is the buffer reversed up to index `out.w`, excluded. -/
def backtrack (dotdot : Nat) : List Char → List Char
  | [] => []
  | c :: rev =>
    if rev.length > dotdot && !IsPathSeparator c then backtrack dotdot rev else rev

/-- Main loop of `filepath.Clean`.  `rev` is the output buffer reversed,
`dotdot` the index where `..` must stop, `copying` tells that the inner loop
copying a real path element is running. -/
def cleanLoop (rooted : Bool) : Bool → List Char → Nat → List Char → List Char
  | _, rev, _, [] => rev
  | true, rev, dotdot, c :: path =>
    if IsPathSeparator c then cleanLoop rooted false rev dotdot path
    else cleanLoop rooted true (c :: rev) dotdot path
  | false, rev, dotdot, c :: path =>
    if IsPathSeparator c then
      -- empty path element
      cleanLoop rooted false rev dotdot path
    else if c == '.' && (path.isEmpty || path.head?.any IsPathSeparator) then
      -- . element
      cleanLoop rooted false rev dotdot path
    else if c == '.' && path.head? == some '.' &&
        ((path.drop 1).isEmpty || (path.drop 1).head?.any IsPathSeparator) then
      -- .. element: remove to last separator
      match path with
      | [] => rev
      | _ :: path1 =>
        if rev.length > dotdot then
          cleanLoop rooted false (backtrack dotdot rev) dotdot path1
        else if !rooted then
          let rev1 := '.' :: '.' :: (if rev.length > 0 then '/' :: rev else rev)
          cleanLoop rooted false rev1 rev1.length path1
        else
          cleanLoop rooted false rev dotdot path1
    else
      -- real path element: add slash if needed, then copy the element
      let rev1 :=
        if (rooted && rev.length != 1) || (!rooted && rev.length != 0) then '/' :: rev else rev
      cleanLoop rooted true (c :: rev1) dotdot path

/-- Unix `filepath.Clean`. -/
def Clean (path : GoString) : GoString :=
  match path with
  | [] => ['.']
  | c :: rest =>
    let rooted := IsPathSeparator c
    let rev :=
      if rooted then cleanLoop true false ['/'] 1 rest
      else cleanLoop false false [] 0 (c :: rest)
    if rev.isEmpty then ['.'] else rev.reverse

/-- Unix `filepath.Join` of two elements. -/
def Join (a b : GoString) : GoString :=
  if a ≠ [] then Clean (a ++ '/' :: b)
  else if b ≠ [] then Clean b
  else []

/-! ## File system and `filepath.WalkDir` -/

mutual
/-- What the file system holds at a path.  A file carries the result of
`os.Open` followed by `io.ReadAll`; a directory carries the result of
`os.ReadDir`: the entries read, in the order returned, and the error if any. -/
inductive Node where
  | file (contents : Except GoError GoString)
  | dir (readErr : Option GoError) (entries : Entries)
/-- Directory entries: name and node. -/
inductive Entries where
  | nil
  | cons (name : GoString) (node : Node) (rest : Entries)
end

/-- Go `fs.DirEntry.IsDir`. -/
def Node.IsDir : Node → Bool
  | .file _ => false
  | .dir _ _ => true

/-- Go `fs.WalkDirFunc`, with the state the closure captures passed explicitly.
`d` is nil only together with a non-nil `err`. -/
abbrev WalkDirFunc (σ : Type) := GoString → Option Node → Option GoError → σ → Option GoError × σ

mutual
/-- Go `filepath.walkDir`.  The callbacks of this program never return
`SkipDir` or `SkipAll`, so those branches are left out. -/
def walkDir {σ : Type} (fn : WalkDirFunc σ) (path : GoString) (d : Node) (s : σ) :
    Option GoError × σ :=
  match d with
  | .file c =>
    fn path (some (.file c)) none s
  | .dir readErr dirs =>
    match fn path (some (.dir readErr dirs)) none s with
    | (some err, s1) => (some err, s1)
    | (none, s1) =>
      match readErr with
      | some err =>
        -- second call, to report the ReadDir error
        match fn path (some (.dir readErr dirs)) (some err) s1 with
        | (some err1, s2) => (some err1, s2)
        | (none, s2) => walkEntries fn path dirs s2
      | none => walkEntries fn path dirs s1
/-- The loop `for _, d1 := range dirs` of `filepath.walkDir`. -/
def walkEntries {σ : Type} (fn : WalkDirFunc σ) (path : GoString) (dirs : Entries) (s : σ) :
    Option GoError × σ :=
  match dirs with
  | .nil => (none, s)
  | .cons name d1 rest =>
    match walkDir fn (Join path name) d1 s with
    | (some err, s1) => (some err, s1)
    | (none, s1) => walkEntries fn path rest s1
end

/-- Go `filepath.WalkDir`.  `root` is the result of `os.Lstat(root)` together
with the tree found there. -/
def WalkDir {σ : Type} (root : GoString) (lstat : Except GoError Node) (fn : WalkDirFunc σ)
    (s : σ) : Option GoError × σ :=
  match lstat with
  | .error err => fn root none (some err) s
  | .ok d => walkDir fn root d s

/-! ## `gatherModules` -/

/-- Go `map[string]string`: at most one pair per key. -/
abbrev Modules := List (GoString × GoString)

/-- Map assignment `m[k] = v`. -/
def Modules.set : Modules → GoString → GoString → Modules
  | [], k, v => [(k, v)]
  | (k1, v1) :: rest, k, v =>
    if k1 = k then (k, v) :: rest else (k1, v1) :: Modules.set rest k v

/-- Map read `m[k]` with the presence flag. -/
def Modules.get (m : Modules) (k : GoString) : Option GoString := m.lookup k

/-- The closure passed to `filepath.WalkDir` by `gatherModules`; the captured
map `modules` is the state. -/
def gatherFn : WalkDirFunc Modules := fun path d err modules =>
  match err with
  | some e => (some e, modules)
  | none =>
    let ext := Ext path
    match d with
    | none => (some .nilDeref, modules)
    | some d =>
      if d.IsDir || ext ≠ ".js".toList then (none, modules)
      else
        match d with
        | .dir _ _ => (none, modules)
        | .file (.error e) => (some e, modules)
        | .file (.ok b) =>
          let modName := ReplaceAll path ext []
          (none, modules.set modName b)

/-- Go `gatherModules`: the map (nil, so empty, on error) and the error. -/
def gatherModules (dir : GoString) (lstat : Except GoError Node) : Modules × Option GoError :=
  match WalkDir dir lstat gatherFn [] with
  | (some err, _) => ([], some err)
  | (none, modules) => (modules, none)

/-! ## `uploadCode` -/

/-- Go `RequestData`. -/
structure RequestData where
  Branch : GoString
  Modules : Modules
  deriving DecidableEq

/-- The HTTP request built by `uploadCode`.  `Body` is the value handed to
`json.Marshal`; `Authorization` is the header value with the argument of the
base64 encoding left unencoded. -/
structure Request where
  Method : GoString
  URL : GoString
  Body : RequestData
  AuthorizationBasic : GoString
  ContentType : GoString
  deriving DecidableEq

/-- The part of `http.Response` within reach of `uploadCode`. -/
structure Response where
  StatusCode : Int
  Body : GoString
  deriving DecidableEq

/-- The world outside the process as seen by one upload cycle: the result of
`os.Lstat` on the watched directory with the tree below it, and the behaviour
of `http.DefaultClient.Do`. -/
structure World where
  lstat : Except GoError Node
  Do : Request → Except GoError Response

/-- Go `uploadCode`: the returned error and the trace of HTTP requests issued.
`json.Marshal` of a string map and `http.NewRequest` with a constant method and
URL cannot fail. -/
def uploadCode (email password dir : GoString) (w : World) : Option GoError × List Request :=
  match gatherModules dir w.lstat with
  | (modules, err) =>
    if err ≠ none || modules.length = 0 then (err, [])
    else
      let d : RequestData := { Branch := "default".toList, Modules := modules }
      let req : Request :=
        { Method := "POST".toList
          URL := "https://screeps.com/api/user/code".toList
          Body := d
          AuthorizationBasic := email ++ ":".toList ++ password
          ContentType := "application/json; charset=utf-8".toList }
      match w.Do req with
      | .error err => (some err, [req])
      | .ok res =>
        if res.StatusCode ≠ 200 then (some (.errorf res.StatusCode), [req])
        else (none, [req])

/-! ## `main`: the change monitor and the debounce scheduler -/

/-- Constant `fsnotify.Write` of the fsnotify library, the `Op` bit of a
content write (`1 << 1`). -/
def fsnotify.Write : Nat := 2

/-- Go `fsnotify.Event`. -/
structure Event where
  Name : GoString
  Op : Nat

/-- Go `atomic.StoreInt32`: the new value of the word. -/
def StoreInt32 (_addr : Int) (val : Int) : Int := val

/-- Go `atomic.CompareAndSwapInt32`: the new value of the word and whether the
swap happened. -/
def CompareAndSwapInt32 (addr old new : Int) : Int × Bool :=
  if addr = old then (new, true) else (addr, false)

/-- Shared state of `main` after start-up: the word `needsUpdate` and, for
each goroutine, whether it is still in its loop. -/
structure State where
  needsUpdate : Int
  monitor : Bool
  scheduler : Bool
  deriving DecidableEq

/-- State after `needsUpdate := int32(1)` and the two `go` statements. -/
def State.init : State := { needsUpdate := 1, monitor := true, scheduler := true }

/-- What a `select` statement of `main` receives.  `none` is a receive from a
closed channel (`ok == false`). -/
inductive Input where
  | event (ev : Option Event)
  | watchError (err : Option GoError)
  | monitorDone
  | tick (w : World)
  | schedulerDone

/-- Observable actions of the goroutines. -/
inductive Output where
  | logError (err : GoError)
  | logUploading
  | uploadCycle (requests : List Request)
  | logCouldNotUpload (err : GoError)
  | logUploaded

/-- One iteration of the first goroutine (change monitor). -/
def monitorStep (s : State) : Input → State × List Output
  | .event none => ({ s with monitor := false }, [])
  | .event (some event) =>
    if event.Op &&& fsnotify.Write = fsnotify.Write then
      if Ext event.Name ≠ ".js".toList then (s, [])
      else ({ s with needsUpdate := StoreInt32 s.needsUpdate 1 }, [])
    else (s, [])
  | .watchError none => ({ s with monitor := false }, [])
  | .watchError (some err) => (s, [.logError err])
  | .monitorDone => ({ s with monitor := false }, [])
  | _ => (s, [])

/-- One iteration of the second goroutine (debounce scheduler). -/
def schedulerStep (email password dir : GoString) (s : State) : Input → State × List Output
  | .tick w =>
    match CompareAndSwapInt32 s.needsUpdate 1 0 with
    | (v, true) =>
      match uploadCode email password dir w with
      | (some err, reqs) =>
        ({ s with needsUpdate := v }, [.logUploading, .uploadCycle reqs, .logCouldNotUpload err])
      | (none, reqs) =>
        ({ s with needsUpdate := v }, [.logUploading, .uploadCycle reqs, .logUploaded])
    | (v, false) => ({ s with needsUpdate := v }, [])
  | .schedulerDone => ({ s with scheduler := false }, [])
  | _ => (s, [])

/-- One receive by whichever goroutine the input is addressed to; a goroutine
that has returned receives nothing. -/
def step (email password dir : GoString) (s : State) (i : Input) : State × List Output :=
  match i with
  | .event _ | .watchError _ | .monitorDone =>
    if s.monitor then monitorStep s i else (s, [])
  | .tick _ | .schedulerDone =>
    if s.scheduler then schedulerStep email password dir s i else (s, [])

/-- A run: the inputs received in order, with the outputs concatenated. -/
def run (email password dir : GoString) : State → List Input → State × List Output
  | s, [] => (s, [])
  | s, i :: rest =>
    let r := step email password dir s i
    let r1 := run email password dir r.1 rest
    (r1.1, r.2 ++ r1.2)

/-- Number of upload cycles (calls of `uploadCode`) in a trace. -/
def uploadCycles : List Output → Nat
  | [] => 0
  | .uploadCycle _ :: rest => uploadCycles rest + 1
  | _ :: rest => uploadCycles rest

/-! ## Example trees -/

/-- Directory of the spec's round trip: `a.js` = "x", `readme.txt`,
`sub/b.js` = "y", in `ReadDir` order. -/
def exampleTree : Node :=
  .dir none
    (.cons "a.js".toList (.file (.ok "x".toList))
    (.cons "readme.txt".toList (.file (.ok "hello".toList))
    (.cons "sub".toList (.dir none (.cons "b.js".toList (.file (.ok "y".toList)) .nil))
    .nil)))

/-- A directory holding only `readme.txt`. -/
def readmeOnlyTree : Node :=
  .dir none (.cons "readme.txt".toList (.file (.ok "hello".toList)) .nil)

/-- A directory holding the single file `a.json.js`. -/
def jsonTree : Node :=
  .dir none (.cons "a.json.js".toList (.file (.ok "x".toList)) .nil)

/-- A directory holding the files `a.js` and `a.js.js`. -/
def clashTree : Node :=
  .dir none
    (.cons "a.js".toList (.file (.ok "x".toList))
    (.cons "a.js.js".toList (.file (.ok "y".toList)) .nil))

/-- An endpoint answering every request with the given status and body. -/
def answering (status : Int) (body : GoString) : Request → Except GoError Response :=
  fun _ => .ok ⟨status, body⟩

/-- An endpoint whose answer depends on the request: the given status and
body for a `POST`, status 200 for anything else. -/
def answeringPost (status : Int) (body : GoString) : Request → Except GoError Response :=
  fun req => if req.Method = "POST".toList then .ok ⟨status, body⟩ else .ok ⟨200, []⟩

/-! ## Specification vocabulary -/

/-- An event passes both filters of the change monitor: its kind has the
content-write bit and the extension of its path is `.js`. -/
def Event.qualifying (ev : Event) : Prop :=
  ev.Op &&& fsnotify.Write = fsnotify.Write ∧ Ext ev.Name = ".js".toList

instance (ev : Event) : Decidable ev.qualifying := by
  unfold Event.qualifying; infer_instance

mutual
/-- The entries `filepath.WalkDir` visits below `path` when nothing stops the
walk: path handed to the callback and node, in walk order. -/
def walkList (path : GoString) (d : Node) : List (GoString × Node) :=
  match d with
  | .file c => [(path, .file c)]
  | .dir readErr dirs => (path, .dir readErr dirs) :: walkListEntries path dirs
/-- The entries visited below the children `dirs` of the directory `path`. -/
def walkListEntries (path : GoString) (dirs : Entries) : List (GoString × Node) :=
  match dirs with
  | .nil => []
  | .cons name d1 rest => walkList (Join path name) d1 ++ walkListEntries path rest
end

/-- A walk entry is eligible: not a directory, and the extension of its path
is `.js`. -/
def eligible (e : GoString × Node) : Prop :=
  e.2.IsDir = false ∧ Ext e.1 = ".js".toList

instance (e : GoString × Node) : Decidable (eligible e) := by
  unfold eligible; infer_instance

/-- The walk and the reads succeed at an entry: a directory is listed without
error, an eligible file is opened and read without error. -/
def readable (e : GoString × Node) : Prop :=
  match e.2 with
  | .dir readErr _ => readErr = none
  | .file (.ok _) => True
  | .file (.error _) => Ext e.1 ≠ ".js".toList

instance (e : GoString × Node) : Decidable (readable e) := by
  unfold readable; split <;> infer_instance

/-- Contribution of one walk entry to the map: an eligible file that can be
read stores its contents under its module name, anything else stores
nothing. -/
def collect (m : Modules) (e : GoString × Node) : Modules :=
  match e.2 with
  | .file (.ok b) =>
    if Ext e.1 = ".js".toList then m.set (ReplaceAll e.1 (Ext e.1) []) b else m
  | _ => m

/-- A name as returned by `os.ReadDir`: not empty, without separator, and
neither `.` nor `..`. -/
def plainName (name : GoString) : Prop :=
  name ≠ [] ∧ (∀ c ∈ name, IsPathSeparator c = false) ∧ name ≠ ['.'] ∧ name ≠ ['.', '.']

instance (name : GoString) : Decidable (plainName name) := by
  unfold plainName; infer_instance

/-- Invariant of the output buffer of `filepath.Clean` on a rooted path: the
buffer starts with the separator and `dotdot` is 1. -/
def rootedInv (rooted : Bool) (rev : List Char) (dotdot : Nat) : Prop :=
  rooted = true → dotdot = 1 ∧ ∃ t, rev = t ++ ['/']

/-- The buffer of `filepath.Clean` after "add slash if needed". -/
def withSeparator (rooted : Bool) (rev : List Char) : List Char :=
  if (rooted && rev.length != 1) || (!rooted && rev.length != 0) then '/' :: rev else rev

/-- The buffer and `dotdot` of `filepath.Clean` after a `..` element. -/
def afterDotDot (rooted : Bool) (rev : List Char) (dotdot : Nat) : List Char × Nat :=
  if rev.length > dotdot then (backtrack dotdot rev, dotdot)
  else if !rooted then
    ('.' :: '.' :: (if rev.length > 0 then '/' :: rev else rev),
      ('.' :: '.' :: (if rev.length > 0 then '/' :: rev else rev)).length)
  else (rev, dotdot)

/-- The request `uploadCode` hands to `http.DefaultClient.Do` for a module
set. -/
def requestFor (email password : GoString) (modules : Modules) : Request :=
  { Method := "POST".toList
    URL := "https://screeps.com/api/user/code".toList
    Body := { Branch := "default".toList, Modules := modules }
    AuthorizationBasic := email ++ ":".toList ++ password
    ContentType := "application/json; charset=utf-8".toList }

/-- The input is received by the first goroutine (change monitor). -/
def Input.forMonitor : Input → Bool
  | .event _ | .watchError _ | .monitorDone => true
  | .tick _ | .schedulerDone => false

/-! ## The dirty flag -/

theorem run_append (email password dir : GoString) (s : State) (xs ys : List Input) :
    run email password dir s (xs ++ ys) =
      ((run email password dir (run email password dir s xs).1 ys).1,
       (run email password dir s xs).2 ++ (run email password dir (run email password dir s xs).1 ys).2) := by
  induction xs generalizing s with
  | nil => simp [run]
  | cons x xs ih => simp [run, ih, List.append_assoc]

theorem uploadCycles_append (xs ys : List Output) :
    uploadCycles (xs ++ ys) = uploadCycles xs + uploadCycles ys := by
  induction xs with
  | nil => simp [uploadCycles]
  | cons x xs ih => cases x <;> simp [uploadCycles, ih]; omega

theorem monitorStep_qualifying (s : State) (ev : Event) (h : ev.qualifying) :
    monitorStep s (.event (some ev)) = ({ s with needsUpdate := 1 }, []) := by
  obtain ⟨h1, h2⟩ := h
  simp [monitorStep, h1, h2, StoreInt32]

theorem monitorStep_not_qualifying (s : State) (ev : Event) (h : ¬ ev.qualifying) :
    monitorStep s (.event (some ev)) = (s, []) := by
  unfold Event.qualifying at h
  show (if ev.Op &&& fsnotify.Write = fsnotify.Write then
        if Ext ev.Name ≠ ".js".toList then (s, [])
        else (({ s with needsUpdate := StoreInt32 s.needsUpdate 1 } : State), ([] : List Output))
      else (s, [])) = (s, [])
  by_cases h1 : ev.Op &&& fsnotify.Write = fsnotify.Write
  · have h2 : Ext ev.Name ≠ ".js".toList := fun h2 => h ⟨h1, h2⟩
    rw [if_pos h1, if_pos h2]
  · rw [if_neg h1]

/-- Inputs for the monitor never run an upload cycle, keep the scheduler
alive and leave a set flag set. -/
theorem run_monitor_inputs (email password dir : GoString) (s : State) (pre : List Input)
    (hpre : ∀ i ∈ pre, i.forMonitor = true) :
    uploadCycles (run email password dir s pre).2 = 0 ∧
    (run email password dir s pre).1.scheduler = s.scheduler ∧
    (s.needsUpdate = 1 → (run email password dir s pre).1.needsUpdate = 1) := by
  induction pre generalizing s with
  | nil => simp [run, uploadCycles]
  | cons i rest ih =>
    have hi := hpre i (List.mem_cons_self _ _)
    have hrest : ∀ j ∈ rest, j.forMonitor = true := fun j hj => hpre j (List.mem_cons_of_mem _ hj)
    have key : uploadCycles (step email password dir s i).2 = 0 ∧
        (step email password dir s i).1.scheduler = s.scheduler ∧
        (s.needsUpdate = 1 → (step email password dir s i).1.needsUpdate = 1) := by
      cases i with
      | event ev =>
        cases ev with
        | none => cases hm : s.monitor <;> simp [step, hm, monitorStep, uploadCycles]
        | some ev =>
          cases hm : s.monitor
          · simp [step, hm, uploadCycles]
          · by_cases hq : ev.qualifying
            · simp [step, hm, monitorStep_qualifying s ev hq, uploadCycles]
            · simp [step, hm, monitorStep_not_qualifying s ev hq, uploadCycles]
      | watchError err =>
        cases err <;> cases hm : s.monitor <;> simp [step, hm, monitorStep, uploadCycles]
      | monitorDone => cases hm : s.monitor <;> simp [step, hm, monitorStep, uploadCycles]
      | tick w => simp [Input.forMonitor] at hi
      | schedulerDone => simp [Input.forMonitor] at hi
    obtain ⟨k1, k2, k3⟩ := key
    obtain ⟨r1, r2, r3⟩ := ih (step email password dir s i).1 hrest
    refine ⟨?_, ?_, ?_⟩
    · simp [run, uploadCycles_append, k1, r1]
    · simp [run, r2, k2]
    · intro h
      simpa [run] using r3 (k3 h)

/-- A tick received by a live scheduler with the flag set runs one cycle and
clears the flag; the rest of the state is untouched. -/
theorem tick_set (email password dir : GoString) (s : State) (w : World)
    (hs : s.scheduler = true) (hf : s.needsUpdate = 1) :
    (step email password dir s (.tick w)).1 = { s with needsUpdate := 0 } ∧
    (step email password dir s (.tick w)).2 =
      [.logUploading, .uploadCycle (uploadCode email password dir w).2,
        match (uploadCode email password dir w).1 with
        | some err => .logCouldNotUpload err
        | none => .logUploaded] := by
  rcases hu : uploadCode email password dir w with ⟨_ | err, reqs⟩ <;>
    simp [step, hs, schedulerStep, CompareAndSwapInt32, hf, hu]

/-- A tick received with the flag not set does nothing. -/
theorem tick_clear (email password dir : GoString) (s : State) (w : World)
    (hf : s.needsUpdate ≠ 1) :
    step email password dir s (.tick w) = (s, []) := by
  cases s with
  | mk f m sch => cases sch <;> simp_all [step, schedulerStep, CompareAndSwapInt32]

/-- After at least one qualifying write event received by a live monitor the
flag is set, whatever it was before. -/
theorem run_qualifying_events (email password dir : GoString) (s : State) (evs : List Event)
    (hm : s.monitor = true) (hN : 1 ≤ evs.length) (hq : ∀ ev ∈ evs, ev.qualifying) :
    (run email password dir s (evs.map fun ev => Input.event (some ev))).1 =
      { s with needsUpdate := 1 } := by
  induction evs generalizing s with
  | nil => simp at hN
  | cons ev rest ih =>
    have h1 := monitorStep_qualifying s ev (hq ev (List.mem_cons_self _ _))
    cases rest with
    | nil => simp [run, step, hm, h1]
    | cons ev2 rest2 =>
      have := ih { s with needsUpdate := 1 } hm (by simp)
        (fun e he => hq e (List.mem_cons_of_mem _ he))
      simp only [List.map_cons, run, step, hm, h1, if_true] at this ⊢
      simpa using this

/-! ## Claims about the dirty flag -/

/-- One qualifying write event and then a tick, from a state with both
goroutines running: one upload cycle. -/
theorem event_then_tick (email password dir : GoString) (s : State) (ev : Event) (w : World)
    (hq : ev.qualifying) (hm : s.monitor = true) (hs : s.scheduler = true) :
    uploadCycles (run email password dir s [.event (some ev), .tick w]).2 = 1 := by
  have h1 := monitorStep_qualifying s ev hq
  have e1 : step email password dir s (.event (some ev)) = ({ s with needsUpdate := 1 }, []) := by
    simp [step, hm, h1]
  have ht := tick_set email password dir { s with needsUpdate := 1 } w hs rfl
  simp only [run, e1, List.nil_append, List.append_nil, ht.2]
  cases (uploadCode email password dir w).1 <;> simp [uploadCycles]

/-- C1 (coalescing): from any state with both goroutines running and any
value of the flag, `N ≥ 1` qualifying write events followed by one tick run
exactly one upload cycle, run by that tick and not by the events, and the
flag is clear afterwards. -/
theorem C1_coalescing (email password dir : GoString) (s : State) (evs : List Event)
    (w : World) (hm : s.monitor = true) (hs : s.scheduler = true) (hN : 1 ≤ evs.length)
    (hq : ∀ ev ∈ evs, ev.qualifying) :
    uploadCycles (run email password dir s
      ((evs.map fun ev => Input.event (some ev)) ++ [Input.tick w])).2 = 1 ∧
    uploadCycles (run email password dir s (evs.map fun ev => Input.event (some ev))).2 = 0 ∧
    uploadCycles (step email password dir
      (run email password dir s (evs.map fun ev => Input.event (some ev))).1 (Input.tick w)).2 = 1 ∧
    (run email password dir s
      ((evs.map fun ev => Input.event (some ev)) ++ [Input.tick w])).1.needsUpdate = 0 := by
  have hev := run_qualifying_events email password dir s evs hm hN hq
  have hmon : ∀ i ∈ (evs.map fun ev => Input.event (some ev)), i.forMonitor = true := by
    intro i hi
    obtain ⟨ev, _, rfl⟩ := List.mem_map.mp hi
    rfl
  have h0 := (run_monitor_inputs email password dir s _ hmon).1
  have ht := tick_set email password dir { s with needsUpdate := 1 } w hs rfl
  have hcount : uploadCycles (step email password dir { s with needsUpdate := 1 } (Input.tick w)).2 = 1 := by
    rw [ht.2]
    cases (uploadCode email password dir w).1 <;> simp [uploadCycles]
  refine ⟨?_, h0, ?_, ?_⟩
  · rw [run_append, uploadCycles_append, h0, hev]
    simpa [run] using hcount
  · rw [hev]; exact hcount
  · rw [run_append, hev]
    simp [run, ht.1]

/-- Witness of C1: three `.js` write events on a clear flag, then a tick on
an empty directory. -/
theorem C1_coalescing_witness :
    uploadCycles (run [] [] "./".toList ⟨0, true, true⟩
      (([⟨"main.js".toList, 2⟩, ⟨"main.js".toList, 2⟩, ⟨"role.js".toList, 2⟩].map
          fun ev => Input.event (some ev)) ++
        [Input.tick ⟨.ok (.dir none .nil), fun _ => .ok ⟨200, []⟩⟩])).2 = 1 :=
  (C1_coalescing [] [] "./".toList ⟨0, true, true⟩
    [⟨"main.js".toList, 2⟩, ⟨"main.js".toList, 2⟩, ⟨"role.js".toList, 2⟩]
    ⟨.ok (.dir none .nil), fun _ => .ok ⟨200, []⟩⟩ rfl rfl (by decide) (by decide)).1

/-- C2 (change-monitor filter): handling a file-system event sets the flag
when the event has the content-write kind and its path has extension `.js`,
and leaves the flag unchanged for every other event; so the flag is set
afterwards exactly when the event qualifies or the flag was set before.
Handling the same event again changes nothing, and nothing but the flag is
touched. -/
theorem C2_monitor_filter (s : State) (ev : Event) :
    (ev.qualifying → (monitorStep s (.event (some ev))).1.needsUpdate = 1) ∧
    (¬ ev.qualifying → (monitorStep s (.event (some ev))).1.needsUpdate = s.needsUpdate) ∧
    ((monitorStep s (.event (some ev))).1.needsUpdate = 1 ↔ (ev.qualifying ∨ s.needsUpdate = 1)) ∧
    (monitorStep (monitorStep s (.event (some ev))).1 (.event (some ev))).1 =
      (monitorStep s (.event (some ev))).1 ∧
    (monitorStep s (.event (some ev))).1.monitor = s.monitor ∧
    (monitorStep s (.event (some ev))).1.scheduler = s.scheduler ∧
    (monitorStep s (.event (some ev))).2 = [] := by
  by_cases hq : ev.qualifying
  · simp [monitorStep_qualifying _ ev hq, hq]
  · simp [monitorStep_not_qualifying _ ev hq, hq]

/-- C9 (initial upload): the initial flag is set, and in every run from the
initial state in which only the change monitor receives anything before the
first tick (in particular when no file-system event arrives), that tick runs
exactly one upload cycle and leaves the flag clear. -/
theorem C9_initial_upload (email password dir : GoString) (pre : List Input) (w : World)
    (hpre : ∀ i ∈ pre, i.forMonitor = true) :
    State.init.needsUpdate = 1 ∧
    uploadCycles (run email password dir State.init pre).2 = 0 ∧
    uploadCycles (step email password dir (run email password dir State.init pre).1
      (Input.tick w)).2 = 1 ∧
    uploadCycles (run email password dir State.init (pre ++ [Input.tick w])).2 = 1 ∧
    (run email password dir State.init (pre ++ [Input.tick w])).1.needsUpdate = 0 := by
  obtain ⟨h0, hsch, hflag⟩ := run_monitor_inputs email password dir State.init pre hpre
  have hf := hflag rfl
  have hs : (run email password dir State.init pre).1.scheduler = true := by rw [hsch]; rfl
  have ht := tick_set email password dir _ w hs hf
  have hcount : uploadCycles (step email password dir (run email password dir State.init pre).1
      (Input.tick w)).2 = 1 := by
    rw [ht.2]
    cases (uploadCode email password dir w).1 <;> simp [uploadCycles]
  refine ⟨rfl, h0, hcount, ?_, ?_⟩
  · rw [run_append, uploadCycles_append, h0]
    simpa [run] using hcount
  · rw [run_append]
    simp [run, ht.1]

/-- Witness of C9: a watcher error, then the first tick. -/
theorem C9_initial_upload_witness :
    uploadCycles (run [] [] "./".toList State.init
      ([Input.watchError (some (.external []))] ++
        [Input.tick ⟨.ok (.dir none .nil), fun _ => .ok ⟨200, []⟩⟩])).2 = 1 ∧
    (run [] [] "./".toList State.init
      ([Input.watchError (some (.external []))] ++
        [Input.tick ⟨.ok (.dir none .nil), fun _ => .ok ⟨200, []⟩⟩])).1.needsUpdate = 0 :=
  (C9_initial_upload [] [] "./".toList [Input.watchError (some (.external []))]
    ⟨.ok (.dir none .nil), fun _ => .ok ⟨200, []⟩⟩ (by decide)).2.2.2

/-- C10 (a failed cycle does not stop the scheduler): when a tick finds the
flag set and `uploadCode` fails, the error is logged and nothing else
happens; the state afterwards has the flag clear and both loops running, and
equals the state after a successful cycle; a later qualifying write event
followed by a tick runs a new cycle, and a tick without a new event runs
none. -/
theorem C10_failed_cycle (email password dir : GoString) (s : State) (w : World)
    (err : GoError) (reqs : List Request)
    (hm : s.monitor = true) (hs : s.scheduler = true) (hf : s.needsUpdate = 1)
    (hfail : uploadCode email password dir w = (some err, reqs)) :
    (step email password dir s (.tick w)).2 =
      [.logUploading, .uploadCycle reqs, .logCouldNotUpload err] ∧
    (step email password dir s (.tick w)).1 = ⟨0, true, true⟩ ∧
    (∀ w1 : World, (uploadCode email password dir w1).1 = none →
      (step email password dir s (.tick w1)).1 = (step email password dir s (.tick w)).1) ∧
    (∀ (ev : Event) (w2 : World), ev.qualifying →
      uploadCycles (run email password dir (step email password dir s (.tick w)).1
        [.event (some ev), .tick w2]).2 = 1) ∧
    (∀ w2 : World,
      step email password dir (step email password dir s (.tick w)).1 (.tick w2) =
        (⟨0, true, true⟩, [])) := by
  have ht := tick_set email password dir s w hs hf
  have hst : (step email password dir s (.tick w)).1 = ⟨0, true, true⟩ := by
    rw [ht.1]
    cases s
    simp_all
  refine ⟨?_, hst, ?_, ?_, ?_⟩
  · rw [ht.2, hfail]
  · intro w1 _
    rw [(tick_set email password dir s w1 hs hf).1, ht.1]
  · intro ev w2 hq
    rw [hst]
    exact event_then_tick email password dir ⟨0, true, true⟩ ev w2 hq rfl rfl
  · intro w2
    rw [hst]
    exact tick_clear email password dir _ w2 (by decide)

/-! ## The module collector -/

theorem Modules.get_set_self (m : Modules) (k v : GoString) : (m.set k v).get k = some v := by
  induction m with
  | nil => simp [Modules.set, Modules.get, List.lookup]
  | cons kv rest ih =>
    obtain ⟨k1, v1⟩ := kv
    by_cases h : k1 = k
    · simp [Modules.set, Modules.get, List.lookup, h]
    · have h2 : (k == k1) = false := by simpa using fun e => h e.symm
      simp only [Modules.get] at ih
      simp [Modules.set, Modules.get, List.lookup, h, h2, ih]

theorem Modules.get_set_ne (m : Modules) (k k2 v : GoString) (hne : k2 ≠ k) :
    (m.set k v).get k2 = m.get k2 := by
  induction m with
  | nil =>
    have h2 : (k2 == k) = false := by simpa using hne
    simp [Modules.set, Modules.get, List.lookup, h2]
  | cons kv rest ih =>
    obtain ⟨k1, v1⟩ := kv
    simp only [Modules.get] at ih
    by_cases h : k1 = k
    · subst h
      have h2 : (k2 == k1) = false := by simpa using hne
      simp [Modules.set, Modules.get, List.lookup, h2]
    · by_cases h3 : k2 = k1
      · subst h3
        simp [Modules.set, Modules.get, List.lookup, h]
      · have h2 : (k2 == k1) = false := by simpa using h3
        simp [Modules.set, Modules.get, List.lookup, h, h2, ih]

theorem gatherFn_readable (path : GoString) (d : Node) (m : Modules)
    (h : readable (path, d)) :
    gatherFn path (some d) none m = (none, collect m (path, d)) := by
  cases d with
  | dir readErr dirs => simp [gatherFn, collect, Node.IsDir]
  | file c =>
    cases c with
    | error err =>
      have hx2 : ¬ Ext path = ['.', 'j', 's'] := h
      simp [gatherFn, collect, Node.IsDir, hx2]
    | ok b =>
      by_cases hx : Ext path = ".js".toList
      · have hx2 : Ext path = ['.', 'j', 's'] := hx
        simp [gatherFn, collect, Node.IsDir, hx2]
      · have hx2 : ¬ Ext path = ['.', 'j', 's'] := hx
        simp [gatherFn, collect, Node.IsDir, hx2]

mutual
/-- On a tree whose entries are all readable, the walk of `gatherModules`
returns no error and folds `collect` over the walk entries. -/
theorem walkDir_gather (path : GoString) (d : Node) (m : Modules)
    (h : ∀ e ∈ walkList path d, readable e) :
    walkDir gatherFn path d m = (none, (walkList path d).foldl collect m) := by
  match d with
  | .file c =>
    have h1 := h (path, .file c) (by simp [walkList])
    simp [walkDir, walkList, gatherFn_readable path (.file c) m h1]
  | .dir readErr dirs =>
    have h1 := h (path, .dir readErr dirs) (by simp [walkList])
    have h2 : readErr = none := h1
    subst h2
    have h3 : ∀ e ∈ walkListEntries path dirs, readable e := by
      intro e he
      exact h e (by simp [walkList, he])
    simp [walkDir, walkList, gatherFn_readable path (.dir none dirs) m h1,
      walkEntries_gather path dirs _ h3]
theorem walkEntries_gather (path : GoString) (dirs : Entries) (m : Modules)
    (h : ∀ e ∈ walkListEntries path dirs, readable e) :
    walkEntries gatherFn path dirs m = (none, (walkListEntries path dirs).foldl collect m) := by
  match dirs with
  | .nil => simp [walkEntries, walkListEntries]
  | .cons name d1 rest =>
    have h1 : ∀ e ∈ walkList (Join path name) d1, readable e := by
      intro e he
      exact h e (by simp [walkListEntries, he])
    have h2 : ∀ e ∈ walkListEntries path rest, readable e := by
      intro e he
      exact h e (by simp [walkListEntries, he])
    simp [walkEntries, walkListEntries, walkDir_gather (Join path name) d1 m h1,
      walkEntries_gather path rest _ h2]
end

theorem collect_not_eligible (m : Modules) (e : GoString × Node) (h : ¬ eligible e) :
    collect m e = m := by
  obtain ⟨p, d⟩ := e
  cases d with
  | dir readErr dirs => rfl
  | file c =>
    have hx : ¬ Ext p = ".js".toList := fun hx => h ⟨rfl, hx⟩
    cases c with
    | error err => rfl
    | ok b => exact if_neg hx

theorem collect_get_ne (m : Modules) (e : GoString × Node) (k : GoString)
    (h : eligible e → ReplaceAll e.1 (Ext e.1) [] ≠ k) :
    (collect m e).get k = m.get k := by
  by_cases he : eligible e
  · obtain ⟨p, d⟩ := e
    cases d with
    | dir readErr dirs => rfl
    | file c =>
      cases c with
      | error err => rfl
      | ok b =>
        have hx : Ext p = ".js".toList := he.2
        show (if Ext p = ".js".toList then m.set (ReplaceAll p (Ext p) []) b else m).get k = _
        rw [if_pos hx]
        exact Modules.get_set_ne m _ k b (fun hk => h he hk.symm)
  · rw [collect_not_eligible m e he]

theorem foldl_collect_get_ne (l : List (GoString × Node)) (m : Modules) (k : GoString)
    (h : ∀ e ∈ l, eligible e → ReplaceAll e.1 (Ext e.1) [] ≠ k) :
    (l.foldl collect m).get k = m.get k := by
  induction l generalizing m with
  | nil => rfl
  | cons e rest ih =>
    rw [List.foldl_cons, ih _ (fun e2 he2 => h e2 (List.mem_cons_of_mem _ he2)),
      collect_get_ne m e k (h e (List.mem_cons_self _ _))]

theorem foldl_collect_not_eligible (l : List (GoString × Node)) (m : Modules)
    (h : ∀ e ∈ l, ¬ eligible e) : l.foldl collect m = m := by
  induction l generalizing m with
  | nil => rfl
  | cons e rest ih =>
    rw [List.foldl_cons, collect_not_eligible m e (h e (List.mem_cons_self _ _)),
      ih _ (fun e2 he2 => h e2 (List.mem_cons_of_mem _ he2))]

theorem collect_get_source (m : Modules) (e : GoString × Node) (k v : GoString)
    (h : (collect m e).get k = some v) :
    m.get k = some v ∨
      (e.2 = .file (.ok v) ∧ Ext e.1 = ".js".toList ∧ k = ReplaceAll e.1 (Ext e.1) []) := by
  by_cases hk : eligible e → ReplaceAll e.1 (Ext e.1) [] ≠ k
  · left
    rw [← collect_get_ne m e k hk]
    exact h
  · have he : eligible e := by
      by_contra hne
      exact hk (fun h1 => absurd h1 hne)
    have hname : ReplaceAll e.1 (Ext e.1) [] = k := by
      by_contra hne
      exact hk (fun _ => hne)
    obtain ⟨p, d⟩ := e
    cases d with
    | dir readErr dirs => exact absurd he.1 (by simp [Node.IsDir])
    | file c =>
      cases c with
      | error err => left; exact h
      | ok b =>
        have hx : Ext p = ".js".toList := he.2
        right
        have h2 : (m.set (ReplaceAll p (Ext p) []) b).get k = some v := by
          have : collect m (p, .file (.ok b)) = m.set (ReplaceAll p (Ext p) []) b := if_pos hx
          rw [← this]
          exact h
        have hname2 : ReplaceAll p (Ext p) [] = k := hname
        rw [hname2, Modules.get_set_self] at h2
        have hb : b = v := Option.some.inj h2
        subst hb
        exact ⟨rfl, hx, hname2.symm⟩

theorem foldl_collect_get_source (l : List (GoString × Node)) (m : Modules) (k v : GoString)
    (h : (l.foldl collect m).get k = some v) :
    m.get k = some v ∨
      ∃ p, (p, Node.file (.ok v)) ∈ l ∧ Ext p = ".js".toList ∧ k = ReplaceAll p (Ext p) [] := by
  induction l generalizing m with
  | nil => left; exact h
  | cons e rest ih =>
    rw [List.foldl_cons] at h
    rcases ih _ h with h1 | ⟨p, hp, hx, hk⟩
    · rcases collect_get_source m e k v h1 with h2 | ⟨h2, hx, hk⟩
      · left; exact h2
      · right
        refine ⟨e.1, ?_, hx, hk⟩
        have : e = (e.1, Node.file (.ok v)) := by rw [← h2]
        rw [← this]
        exact List.mem_cons_self _ _
    · right
      exact ⟨p, List.mem_cons_of_mem _ hp, hx, hk⟩

theorem gatherModules_readable (dir : GoString) (root : Node)
    (h : ∀ e ∈ walkList dir root, readable e) :
    gatherModules dir (.ok root) = ((walkList dir root).foldl collect [], none) := by
  simp [gatherModules, WalkDir, walkDir_gather dir root [] h]

/-- What holds of the collector on a tree whose walk and reads all succeed:
`gatherModules` returns a nil error, and its map is built from the walk
entries by storing, for each entry that is not a directory and whose path has
extension `.js`, the full file contents under the module name, and nothing
for any other entry.  Every pair of the map comes from such a file and holds
its contents; such a file's contents are in the map when no later eligible
file has the same module name; a tree without eligible entries gives the
empty map and a nil error. -/
theorem gatherModules_eligible_entries (dir : GoString) (root : Node)
    (hok : ∀ e ∈ walkList dir root, readable e) :
    (gatherModules dir (.ok root)).2 = none ∧
    (gatherModules dir (.ok root)).1 = (walkList dir root).foldl collect [] ∧
    (∀ k v, (gatherModules dir (.ok root)).1.get k = some v →
      ∃ p, (p, Node.file (.ok v)) ∈ walkList dir root ∧ (Node.file (.ok v)).IsDir = false ∧
        Ext p = ".js".toList ∧ k = ReplaceAll p (Ext p) []) ∧
    (∀ l1 l2 p b, walkList dir root = l1 ++ (p, Node.file (.ok b)) :: l2 →
      Ext p = ".js".toList →
      (∀ e ∈ l2, eligible e → ReplaceAll e.1 (Ext e.1) [] ≠ ReplaceAll p (Ext p) []) →
      (gatherModules dir (.ok root)).1.get (ReplaceAll p (Ext p) []) = some b) ∧
    ((∀ e ∈ walkList dir root, ¬ eligible e) →
      gatherModules dir (.ok root) = ([], none)) := by
  have hg := gatherModules_readable dir root hok
  refine ⟨by rw [hg], by rw [hg], ?_, ?_, ?_⟩
  · intro k v hkv
    rw [hg] at hkv
    rcases foldl_collect_get_source _ _ k v hkv with h1 | ⟨p, hp, hx, hk⟩
    · simp [Modules.get] at h1
    · exact ⟨p, hp, rfl, hx, hk⟩
  · intro l1 l2 p b hsplit hx hlater
    rw [hg, hsplit, List.foldl_append, List.foldl_cons, foldl_collect_get_ne l2 _ _ hlater]
    have : collect (List.foldl collect [] l1) (p, Node.file (.ok b)) =
        (List.foldl collect [] l1).set (ReplaceAll p (Ext p) []) b := if_pos hx
    rw [this, Modules.get_set_self]
  · intro hnone
    rw [hg, foldl_collect_not_eligible _ _ hnone]

/-- C6 (eligibility filter), evaluation of the code where it departs from the
claim: in the directory holding `a.js` = "x" and `a.js.js` = "y" the walk and
all reads succeed and `a.js` is a walk entry that is not a directory and has
extension `.js`, yet the map returned is the single pair from `a` to "y": no
entry of the map holds the contents "x" of `a.js`, so this eligible file
contributes nothing. -/
theorem C6_contents_lost :
    (∀ e ∈ walkList "./".toList clashTree, readable e) ∧
    walkList "./".toList clashTree =
      [("./".toList, clashTree), ("a.js".toList, .file (.ok "x".toList)),
        ("a.js.js".toList, .file (.ok "y".toList))] ∧
    (Node.file (.ok "x".toList)).IsDir = false ∧
    Ext "a.js".toList = ".js".toList ∧
    gatherModules "./".toList (.ok clashTree) = ([("a".toList, "y".toList)], none) ∧
    (∀ kv ∈ (gatherModules "./".toList (.ok clashTree)).1, kv.2 ≠ "x".toList) ∧
    (∀ k, (gatherModules "./".toList (.ok clashTree)).1.get k ≠ some "x".toList) := by
  refine ⟨by decide, rfl, rfl, by decide, by decide, by decide, ?_⟩
  intro k hk
  have hg : gatherModules "./".toList (.ok clashTree) = ([("a".toList, "y".toList)], none) := by
    decide
  rw [hg] at hk
  simp only [Modules.get, List.lookup] at hk
  split at hk
  · exact absurd (Option.some.inj hk) (by decide)
  · exact absurd hk (by simp)

/-! ## The upload client -/

/-- C7 (empty set means no upload): whenever `gatherModules` succeeds with an
empty map, `uploadCode` returns a nil error and issues no HTTP request,
whatever the credentials. -/
theorem C7_empty_no_upload (email password dir : GoString) (w : World)
    (hnil : (gatherModules dir w.lstat).2 = none)
    (hempty : (gatherModules dir w.lstat).1.length = 0) :
    uploadCode email password dir w = (none, []) := by
  unfold uploadCode
  rcases hg : gatherModules dir w.lstat with ⟨modules, err⟩
  rw [hg] at hnil hempty
  simp only at hnil hempty
  subst hnil
  simp [hempty]

/-- Witness of C7: a directory holding only `readme.txt`. -/
theorem C7_empty_no_upload_witness :
    (gatherModules "./".toList (.ok readmeOnlyTree)).2 = none ∧
    (gatherModules "./".toList (.ok readmeOnlyTree)).1.length = 0 ∧
    uploadCode "me@example.com".toList "secret".toList "./".toList
      ⟨.ok readmeOnlyTree, answering 200 []⟩ = (none, []) :=
  ⟨by decide, by decide,
    C7_empty_no_upload "me@example.com".toList "secret".toList "./".toList
      ⟨.ok readmeOnlyTree, answering 200 []⟩ (by decide) (by decide)⟩

/-- C8 (status interpretation): when collection succeeds with a non-empty map
and the HTTP exchange for the request `uploadCode` builds completes with a
response of status `s`, whatever the endpoint does with other requests,
`uploadCode` issues that one request and returns nil exactly when `s = 200`;
for any other `s` it returns the error formatted from `s`; and in any world
with the same directory where that exchange completes with the same status
and any body, the result is the same. -/
theorem C8_status (email password dir : GoString) (w : World) (res : Response)
    (hnil : (gatherModules dir w.lstat).2 = none)
    (hne : (gatherModules dir w.lstat).1 ≠ [])
    (hdo : w.Do (requestFor email password (gatherModules dir w.lstat).1) = .ok res) :
    ((uploadCode email password dir w).1 = none ↔ res.StatusCode = 200) ∧
    (res.StatusCode ≠ 200 →
      (uploadCode email password dir w).1 = some (.errorf res.StatusCode)) ∧
    (uploadCode email password dir w).2 =
      [requestFor email password (gatherModules dir w.lstat).1] ∧
    (∀ (w1 : World) (body : GoString), w1.lstat = w.lstat →
      w1.Do (requestFor email password (gatherModules dir w.lstat).1) =
        .ok ⟨res.StatusCode, body⟩ →
      uploadCode email password dir w1 = uploadCode email password dir w) := by
  have key : ∀ w1 : World, w1.lstat = w.lstat → ∀ res1 : Response,
      w1.Do (requestFor email password (gatherModules dir w.lstat).1) = .ok res1 →
      uploadCode email password dir w1 =
        (if res1.StatusCode = 200 then none else some (.errorf res1.StatusCode),
          [requestFor email password (gatherModules dir w.lstat).1]) := by
    intro w1 hl res1 hdo1
    unfold uploadCode
    rw [hl]
    rcases hg : gatherModules dir w.lstat with ⟨modules, err⟩
    rw [hg] at hnil hne hdo1
    simp only at hnil hne hdo1
    subst hnil
    have hlen : modules.length ≠ 0 := by
      intro h0
      exact hne (List.length_eq_zero.mp h0)
    simp only [requestFor, String.toList, List.append_assoc, List.singleton_append] at hdo1
    by_cases h200 : res1.StatusCode = 200
    · simp [hlen, hdo1, h200, requestFor]
    · simp [hlen, hdo1, h200, requestFor]
  have hu := key w rfl res hdo
  refine ⟨?_, ?_, ?_, ?_⟩
  · rw [hu]
    by_cases h200 : res.StatusCode = 200 <;> simp [h200]
  · intro h200
    rw [hu]
    simp [h200]
  · rw [hu]
  · intro w1 body hl hdo1
    rw [hu, key w1 hl ⟨res.StatusCode, body⟩ hdo1]

/-- Witness of C8: an endpoint that answers a `POST` with status 204 and
anything else with 200, on the example directory. -/
theorem C8_status_witness :
    answeringPost 204 "created".toList
      (requestFor "me@example.com".toList "secret".toList
        (gatherModules "./".toList (.ok exampleTree)).1) = .ok ⟨204, "created".toList⟩ ∧
    (uploadCode "me@example.com".toList "secret".toList "./".toList
      ⟨.ok exampleTree, answeringPost 204 "created".toList⟩).1 = some (.errorf 204) :=
  ⟨rfl,
    (C8_status "me@example.com".toList "secret".toList "./".toList
      ⟨.ok exampleTree, answeringPost 204 "created".toList⟩ ⟨204, "created".toList⟩
      (by decide) (by decide) rfl).2.1 (by decide)⟩

/-- Witness of C10: status 500 on the example directory, from the initial
state. -/
theorem C10_failed_cycle_witness :
    uploadCode [] [] "./".toList ⟨.ok exampleTree, answering 500 []⟩ =
      (some (.errorf 500),
        (uploadCode [] [] "./".toList ⟨.ok exampleTree, answering 500 []⟩).2) ∧
    (step [] [] "./".toList State.init (.tick ⟨.ok exampleTree, answering 500 []⟩)).1 =
      ⟨0, true, true⟩ :=
  ⟨by decide,
    (C10_failed_cycle [] [] "./".toList State.init ⟨.ok exampleTree, answering 500 []⟩
      (.errorf 500) (uploadCode [] [] "./".toList ⟨.ok exampleTree, answering 500 []⟩).2
      rfl rfl rfl (by decide)).2.1⟩

/-! ## Paths handed to the callback -/

theorem extLoop_append (rn rp acc : List Char)
    (hrn : ∀ c ∈ rn, IsPathSeparator c = false)
    (hrp : rp = [] ∨ ∃ t, rp = '/' :: t) :
    extLoop (rn ++ rp) acc = extLoop rn acc := by
  induction rn generalizing acc with
  | nil =>
    rcases hrp with rfl | ⟨t, rfl⟩
    · rfl
    · simp [extLoop, IsPathSeparator]
  | cons c rn ih =>
    have hc := hrn c (List.mem_cons_self _ _)
    have hrest : ∀ c2 ∈ rn, IsPathSeparator c2 = false :=
      fun c2 h2 => hrn c2 (List.mem_cons_of_mem _ h2)
    simp only [List.cons_append, extLoop, hc]
    by_cases hd : (c == '.') = true
    · simp [hd]
    · simp [hd, ih _ hrest]

/-- The extension of a path whose final element is `name`. -/
theorem Ext_final_element (x name : List Char)
    (hname : ∀ c ∈ name, IsPathSeparator c = false)
    (hx : x = [] ∨ ∃ t, x = '/' :: t) :
    Ext (x.reverse ++ name) = Ext name := by
  unfold Ext
  rw [List.reverse_append, List.reverse_reverse]
  exact extLoop_append name.reverse x [] (fun c hc => hname c (List.mem_reverse.mp hc)) hx

/-- Removing every `.js` from a path that holds `.js` only as its suffix
removes that suffix. -/
theorem ReplaceAll_only_suffix (q : GoString) (h : ¬ ".js".toList <:+: q) :
    ReplaceAll (q ++ ".js".toList) ".js".toList [] = q := by
  have h0 : ReplaceAll (q ++ ".js".toList) ".js".toList [] =
      replaceLoop ".js".toList [] 0 (q ++ ".js".toList) := by
    simp [ReplaceAll]
  rw [h0]
  clear h0
  induction q with
  | nil => decide
  | cons c q ih =>
    have hq : ¬ ".js".toList <:+: q := fun hq => h (List.infix_cons hq)
    have hpre : ¬ ".js".toList <+: c :: (q ++ ".js".toList) := by
      intro hp
      have hc : ['.', 'j', 's'] <+: c :: (q ++ ['.', 'j', 's']) := hp
      rw [List.cons_prefix_cons] at hc
      obtain ⟨rfl, hc⟩ := hc
      cases q with
      | nil => simp at hc
      | cons d q =>
        rw [List.cons_append, List.cons_prefix_cons] at hc
        obtain ⟨rfl, hc⟩ := hc
        cases q with
        | nil => simp at hc
        | cons e q =>
          rw [List.cons_append, List.cons_prefix_cons] at hc
          obtain ⟨rfl, _⟩ := hc
          exact h ⟨[], q, rfl⟩
    have hb : List.isPrefixOf ".js".toList (c :: (q ++ ".js".toList)) = false := by
      rw [Bool.eq_false_iff]
      intro hb
      exact hpre (List.isPrefixOf_iff_prefix.mp hb)
    rw [List.cons_append, replaceLoop]
    split
    · rename_i hp
      rw [hb] at hp
      exact absurd hp (by decide)
    · rw [ih hq]

/-- One iteration of the main loop of `filepath.Clean` at the start of a
path element. -/
theorem cleanLoop_false_cons (rooted : Bool) (rev : List Char) (dd : Nat) (c : Char)
    (path : List Char) :
    cleanLoop rooted false rev dd (c :: path) =
      if IsPathSeparator c then cleanLoop rooted false rev dd path
      else if c == '.' && (path.isEmpty || path.head?.any IsPathSeparator) then
        cleanLoop rooted false rev dd path
      else if c == '.' && path.head? == some '.' &&
          ((path.drop 1).isEmpty || (path.drop 1).head?.any IsPathSeparator) then
        cleanLoop rooted false (afterDotDot rooted rev dd).1 (afterDotDot rooted rev dd).2
          (path.drop 1)
      else cleanLoop rooted true (c :: withSeparator rooted rev) dd path := by
  cases path with
  | nil =>
    rw [cleanLoop.eq_3]
    simp [withSeparator]
  | cons c1 path1 =>
    rw [cleanLoop.eq_4]
    unfold afterDotDot withSeparator
    by_cases hl : rev.length > dd
    · simp [hl]
    · cases rooted <;> simp [hl]

theorem cleanLoop_sep (rooted copying : Bool) (rev : List Char) (dd : Nat) (path : List Char) :
    cleanLoop rooted copying rev dd ('/' :: path) = cleanLoop rooted false rev dd path := by
  cases copying
  · rw [cleanLoop_false_cons]; simp [IsPathSeparator]
  · rw [cleanLoop.eq_2]; simp [IsPathSeparator]

theorem cleanLoop_copy_step (rooted : Bool) (rev : List Char) (dd : Nat) (c : Char)
    (path : List Char) (hc : IsPathSeparator c = false) :
    cleanLoop rooted true rev dd (c :: path) = cleanLoop rooted true (c :: rev) dd path := by
  rw [cleanLoop.eq_2]; simp [hc]

theorem cleanLoop_dot (rooted : Bool) (rev : List Char) (dd : Nat) (path : List Char)
    (hp : path = [] ∨ ∃ t, path = '/' :: t) :
    cleanLoop rooted false rev dd ('.' :: path) = cleanLoop rooted false rev dd path := by
  rw [cleanLoop_false_cons]
  rcases hp with rfl | ⟨t, rfl⟩ <;> simp [IsPathSeparator]

theorem cleanLoop_dotdot (rooted : Bool) (rev : List Char) (dd : Nat) (path : List Char)
    (hp : path = [] ∨ ∃ t, path = '/' :: t) :
    cleanLoop rooted false rev dd ('.' :: '.' :: path) =
      cleanLoop rooted false (afterDotDot rooted rev dd).1 (afterDotDot rooted rev dd).2 path := by
  rw [cleanLoop_false_cons]
  rcases hp with rfl | ⟨t, rfl⟩ <;> simp [IsPathSeparator]

theorem cleanLoop_elem (rooted : Bool) (rev : List Char) (dd : Nat) (c : Char)
    (path : List Char) (hc : IsPathSeparator c = false)
    (h2 : (c == '.' && (path.isEmpty || path.head?.any IsPathSeparator)) = false)
    (h3 : (c == '.' && path.head? == some '.' &&
      ((path.drop 1).isEmpty || (path.drop 1).head?.any IsPathSeparator)) = false) :
    cleanLoop rooted false rev dd (c :: path) =
      cleanLoop rooted true (c :: withSeparator rooted rev) dd path := by
  rw [cleanLoop_false_cons, hc, h2, h3]
  simp

theorem cleanLoop_copy (rooted : Bool) (rev : List Char) (dd : Nat) (ns : List Char)
    (h : ∀ c ∈ ns, IsPathSeparator c = false) :
    cleanLoop rooted true rev dd ns = ns.reverse ++ rev := by
  induction ns generalizing rev with
  | nil => simp [cleanLoop]
  | cons c ns ih =>
    rw [cleanLoop_copy_step _ _ _ _ _ (h c (List.mem_cons_self _ _)),
      ih _ (fun c2 h2 => h c2 (List.mem_cons_of_mem _ h2))]
    simp

/-- The main loop of `filepath.Clean` on a final element that is a plain
name: separator if needed, then the name. -/
theorem cleanLoop_plainName (rooted : Bool) (rev : List Char) (dd : Nat) (name : List Char)
    (h : plainName name) :
    cleanLoop rooted false rev dd name = name.reverse ++ withSeparator rooted rev := by
  obtain ⟨hne, hsep, hdot, hdd⟩ := h
  cases name with
  | nil => exact absurd rfl hne
  | cons c ns =>
    have hc := hsep c (List.mem_cons_self _ _)
    have hns : ∀ c2 ∈ ns, IsPathSeparator c2 = false :=
      fun c2 h2 => hsep c2 (List.mem_cons_of_mem _ h2)
    have h2 : (c == '.' && (ns.isEmpty || ns.head?.any IsPathSeparator)) = false := by
      cases ns with
      | nil =>
        have : c ≠ '.' := fun hcd => hdot (by rw [hcd])
        simp [this]
      | cons d ns1 =>
        have hd := hns d (List.mem_cons_self _ _)
        simp [hd]
    have h3 : (c == '.' && ns.head? == some '.' &&
        ((ns.drop 1).isEmpty || (ns.drop 1).head?.any IsPathSeparator)) = false := by
      cases ns with
      | nil => simp
      | cons d ns1 =>
        cases ns1 with
        | nil =>
          have : ¬ (c = '.' ∧ d = '.') := fun hcd => hdd (by rw [hcd.1, hcd.2])
          simp only [not_and] at this
          simp
          exact this
        | cons e ns2 =>
          have he := hns e (List.mem_cons_of_mem _ (List.mem_cons_self _ _))
          simp [he]
    rw [cleanLoop_elem rooted rev dd c ns hc h2 h3, cleanLoop_copy rooted _ dd ns hns]
    simp

theorem backtrack_rooted (t : List Char) (h : (t ++ ['/']).length > 1) :
    ∃ t1, backtrack 1 (t ++ ['/']) = t1 ++ ['/'] := by
  induction t with
  | nil => simp at h
  | cons c t2 ih =>
    rw [List.cons_append, backtrack]
    by_cases hc : ((t2 ++ ['/']).length > 1 && !IsPathSeparator c) = true
    · rw [if_pos hc]
      simp only [Bool.and_eq_true, decide_eq_true_eq] at hc
      exact ih hc.1
    · rw [if_neg hc]
      exact ⟨t2, rfl⟩

theorem rootedInv_cons (rooted : Bool) (rev : List Char) (dd : Nat) (c : Char)
    (h : rootedInv rooted rev dd) : rootedInv rooted (c :: rev) dd := by
  intro hr
  obtain ⟨h1, t, ht⟩ := h hr
  exact ⟨h1, c :: t, by rw [ht]; rfl⟩

theorem rootedInv_withSeparator (rooted : Bool) (rev : List Char) (dd : Nat)
    (h : rootedInv rooted rev dd) : rootedInv rooted (withSeparator rooted rev) dd := by
  unfold withSeparator
  split
  · exact rootedInv_cons rooted rev dd '/' h
  · exact h

theorem rootedInv_afterDotDot (rooted : Bool) (rev : List Char) (dd : Nat)
    (h : rootedInv rooted rev dd) :
    rootedInv rooted (afterDotDot rooted rev dd).1 (afterDotDot rooted rev dd).2 := by
  intro hr
  obtain ⟨h1, t, ht⟩ := h hr
  subst hr h1 ht
  unfold afterDotDot
  by_cases hl : (t ++ ['/']).length > 1
  · rw [if_pos hl]
    exact ⟨rfl, backtrack_rooted t hl⟩
  · rw [if_neg hl]
    exact ⟨rfl, t, rfl⟩

/-- The main loop of `filepath.Clean` on `p ++ "/" ++ q`: after `p` and the
separator the loop is at the start of an element, in a state that depends on
`p` only. -/
theorem cleanLoop_through (rooted : Bool) (n : Nat) :
    ∀ p : List Char, p.length ≤ n → ∀ (copying : Bool) (rev : List Char) (dd : Nat),
      rootedInv rooted rev dd →
      ∃ rev1 dd1, rootedInv rooted rev1 dd1 ∧
        ∀ q, cleanLoop rooted copying rev dd (p ++ '/' :: q) = cleanLoop rooted false rev1 dd1 q := by
  induction n with
  | zero =>
    intro p hp copying rev dd hinv
    have : p = [] := List.length_eq_zero.mp (Nat.le_zero.mp hp)
    subst this
    exact ⟨rev, dd, hinv, fun q => cleanLoop_sep rooted copying rev dd q⟩
  | succ n ih =>
    intro p hp copying rev dd hinv
    cases p with
    | nil => exact ⟨rev, dd, hinv, fun q => cleanLoop_sep rooted copying rev dd q⟩
    | cons c p1 =>
      have hp1 : p1.length ≤ n := by simpa using hp
      by_cases hs : c = '/'
      · subst hs
        obtain ⟨rev1, dd1, hinv1, h1⟩ := ih p1 hp1 false rev dd hinv
        exact ⟨rev1, dd1, hinv1, fun q => by
          rw [List.cons_append, cleanLoop_sep]; exact h1 q⟩
      · have hc : IsPathSeparator c = false := by simpa [IsPathSeparator] using hs
        cases copying with
        | true =>
          obtain ⟨rev1, dd1, hinv1, h1⟩ :=
            ih p1 hp1 true (c :: rev) dd (rootedInv_cons rooted rev dd c hinv)
          exact ⟨rev1, dd1, hinv1, fun q => by
            rw [List.cons_append, cleanLoop_copy_step _ _ _ _ _ hc]; exact h1 q⟩
        | false =>
          -- the element starting at `c` is `.`, `..` or a real element
          have helem : ∀ (h2 : ∀ q, (c == '.' && ((p1 ++ '/' :: q).isEmpty ||
                (p1 ++ '/' :: q).head?.any IsPathSeparator)) = false)
              (h3 : ∀ q, (c == '.' && (p1 ++ '/' :: q).head? == some '.' &&
                (((p1 ++ '/' :: q).drop 1).isEmpty ||
                  ((p1 ++ '/' :: q).drop 1).head?.any IsPathSeparator)) = false),
              ∃ rev1 dd1, rootedInv rooted rev1 dd1 ∧
                ∀ q, cleanLoop rooted false rev dd ((c :: p1) ++ '/' :: q) =
                  cleanLoop rooted false rev1 dd1 q := by
            intro h2 h3
            obtain ⟨rev1, dd1, hinv1, h1⟩ :=
              ih p1 hp1 true (c :: withSeparator rooted rev) dd
                (rootedInv_cons rooted _ dd c (rootedInv_withSeparator rooted rev dd hinv))
            exact ⟨rev1, dd1, hinv1, fun q => by
              rw [List.cons_append, cleanLoop_elem rooted rev dd c _ hc (h2 q) (h3 q)]
              exact h1 q⟩
          by_cases hd : c = '.'
          · subst hd
            cases p1 with
            | nil =>
              exact ⟨rev, dd, hinv, fun q => by
                rw [List.cons_append, List.nil_append,
                  cleanLoop_dot rooted rev dd _ (Or.inr ⟨q, rfl⟩), cleanLoop_sep]⟩
            | cons c2 p2 =>
              have hp2 : p2.length ≤ n := by
                simp only [List.length_cons] at hp1; omega
              by_cases hs2 : c2 = '/'
              · subst hs2
                obtain ⟨rev1, dd1, hinv1, h1⟩ := ih ('/' :: p2) hp1 false rev dd hinv
                exact ⟨rev1, dd1, hinv1, fun q => by
                  simp only [List.cons_append] at h1 ⊢
                  rw [cleanLoop_dot rooted rev dd _ (Or.inr ⟨p2 ++ '/' :: q, rfl⟩)]
                  exact h1 q⟩
              · have hc2 : IsPathSeparator c2 = false := by simpa [IsPathSeparator] using hs2
                by_cases hd2 : c2 = '.'
                · subst hd2
                  cases p2 with
                  | nil =>
                    exact ⟨(afterDotDot rooted rev dd).1, (afterDotDot rooted rev dd).2,
                      rootedInv_afterDotDot rooted rev dd hinv, fun q => by
                        rw [List.cons_append, List.cons_append, List.nil_append,
                          cleanLoop_dotdot rooted rev dd _ (Or.inr ⟨q, rfl⟩), cleanLoop_sep]⟩
                  | cons c3 p3 =>
                    by_cases hs3 : c3 = '/'
                    · subst hs3
                      obtain ⟨rev1, dd1, hinv1, h1⟩ :=
                        ih ('/' :: p3) (by simp only [List.length_cons] at hp2 ⊢; omega) false
                          (afterDotDot rooted rev dd).1 (afterDotDot rooted rev dd).2
                          (rootedInv_afterDotDot rooted rev dd hinv)
                      exact ⟨rev1, dd1, hinv1, fun q => by
                        simp only [List.cons_append] at h1 ⊢
                        rw [cleanLoop_dotdot rooted rev dd _ (Or.inr ⟨p3 ++ '/' :: q, rfl⟩)]
                        exact h1 q⟩
                    · have hc3 : IsPathSeparator c3 = false := by
                        simpa [IsPathSeparator] using hs3
                      exact helem (fun q => by simp [IsPathSeparator])
                        (fun q => by simp [hc3])
                · exact helem (fun q => by simp [hc2])
                    (fun q => by simp [hd2])
          · exact helem (fun q => by simp [hd]) (fun q => by simp [hd])

/-- Joining a directory path and a plain name: the result is the name behind a
prefix that depends on the directory path only; the prefix is empty or has
the separator as its last character. -/
theorem Join_plainName (a : GoString) :
    ∃ x : List Char, (x = [] ∨ ∃ t, x = '/' :: t) ∧
      ∀ name, plainName name → Join a name = x.reverse ++ name := by
  cases a with
  | nil =>
    refine ⟨[], Or.inl rfl, ?_⟩
    intro name hname
    have hne : name ≠ [] := hname.1
    cases name with
    | nil => exact absurd rfl hne
    | cons c ns =>
      have hc : IsPathSeparator c = false := hname.2.1 c (List.mem_cons_self _ _)
      have hl := cleanLoop_plainName false [] 0 (c :: ns) hname
      simp [Join, Clean, hc, hl, withSeparator]
  | cons c rest =>
    by_cases hs : IsPathSeparator c = true
    · obtain ⟨rev1, dd1, hinv1, h1⟩ :=
        cleanLoop_through true rest.length rest (Nat.le_refl _) false ['/'] 1
          (fun _ => ⟨rfl, [], rfl⟩)
      refine ⟨withSeparator true rev1, ?_, ?_⟩
      · obtain ⟨_, t, ht⟩ := hinv1 rfl
        subst ht
        unfold withSeparator
        cases t with
        | nil => right; exact ⟨[], by simp⟩
        | cons d t2 => right; exact ⟨d :: (t2 ++ ['/']), by simp⟩
      · intro name hname
        have hl := cleanLoop_plainName true rev1 dd1 name hname
        have hne : name ≠ [] := hname.1
        simp [Join, Clean, hs, h1 name, hl, hne]
    · have hc : IsPathSeparator c = false := by simpa using hs
      obtain ⟨rev1, dd1, hinv1, h1⟩ :=
        cleanLoop_through false (c :: rest).length (c :: rest) (Nat.le_refl _) false [] 0
          (fun h => by simp at h)
      refine ⟨withSeparator false rev1, ?_, ?_⟩
      · unfold withSeparator
        cases rev1 with
        | nil => left; simp
        | cons d t2 => right; exact ⟨d :: t2, by simp⟩
      · intro name hname
        have hl := cleanLoop_plainName false rev1 dd1 name hname
        have hne : name ≠ [] := hname.1
        have h2 := h1 name
        simp only [List.cons_append] at h2
        simp [Join, Clean, hc, h2, hl, hne]

/-- The extension of the walk path of a directory entry is the extension of
the entry's name. -/
theorem Ext_Join (a name : GoString) (hname : plainName name) :
    Ext (Join a name) = Ext name := by
  obtain ⟨x, hx, hj⟩ := Join_plainName a
  rw [hj name hname]
  exact Ext_final_element x name hname.2.1 hx

/-! ## Module names -/

/-- C3 (module-name derivation), evaluation of the code where it departs from
the claim: for the file `a.json.js` the key stored by `gatherModules` is
`aon`, not `a.json`; every occurrence of `.js` is removed, not only the
trailing extension.  Likewise the path `lib.js/foo.js` gives `lib/foo`. -/
theorem C3_every_occurrence_removed :
    Ext "a.json.js".toList = ".js".toList ∧
    gatherModules "./".toList (.ok jsonTree) = ([("aon".toList, "x".toList)], none) ∧
    (gatherModules "./".toList (.ok jsonTree)).1.get "a.json".toList = none ∧
    "aon".toList ++ ".js".toList ≠ "a.json.js".toList ∧
    ReplaceAll "lib.js/foo.js".toList (Ext "lib.js/foo.js".toList) [] = "lib/foo".toList := by
  decide

/-- C4 (module-name uniqueness), evaluation of the code where it departs from
the claim: the files `a.js` and `a.js.js` of one directory are both eligible
and have distinct paths, both get the module name `a`, and the map returned
has one entry, holding the contents of the second file only. -/
theorem C4_names_clash :
    walkList "./".toList clashTree =
      [("./".toList, clashTree), ("a.js".toList, .file (.ok "x".toList)),
        ("a.js.js".toList, .file (.ok "y".toList))] ∧
    eligible ("a.js".toList, Node.file (.ok "x".toList)) ∧
    eligible ("a.js.js".toList, Node.file (.ok "y".toList)) ∧
    ReplaceAll "a.js".toList (Ext "a.js".toList) [] =
      ReplaceAll "a.js.js".toList (Ext "a.js.js".toList) [] ∧
    gatherModules "./".toList (.ok clashTree) = ([("a".toList, "y".toList)], none) := by
  refine ⟨rfl, by decide, by decide, by decide, by decide⟩

/-- C5, the claim as stated fails: with the watched root written `proj` the
map returned for the example directory has the keys `proj/a` and
`proj/sub/b`, and no key `a` or `sub/b`. -/
theorem C5_root_prefix_counterexample :
    gatherModules "proj".toList (.ok exampleTree) =
      ([("proj/a".toList, "x".toList), ("proj/sub/b".toList, "y".toList)], none) ∧
    (gatherModules "proj".toList (.ok exampleTree)).1.get "a".toList = none ∧
    (gatherModules "proj".toList (.ok exampleTree)).1.get "sub/b".toList = none ∧
    gatherModules "proj".toList (.ok exampleTree) ≠
      ([("a".toList, "x".toList), ("sub/b".toList, "y".toList)], none) := by
  decide

/-- C5 as amended (names follow the walk path): for every spelling `root` of
the watched directory holding `a.js` = "x", `sub/b.js` = "y" and
`readme.txt`, such that `.js` does not occur in the joined paths `root/a` and
`root/sub/b`, `gatherModules` returns exactly the map from
`Join root "a"` to "x" and from `Join (Join root "sub") "b"` to "y": the
path handed to the callback, which is the root as written joined with the
root-relative path, with its extension stripped.  For the roots `./` and `.`
this is the map from `a` and `sub/b`; for `/abs/proj` the keys are
`/abs/proj/a` and `/abs/proj/sub/b`. -/
theorem C5_walk_path_names (root : GoString)
    (h1 : ¬ ".js".toList <:+: Join root "a".toList)
    (h2 : ¬ ".js".toList <:+: Join (Join root "sub".toList) "b".toList) :
    gatherModules root (.ok exampleTree) =
      ([(Join root "a".toList, "x".toList),
        (Join (Join root "sub".toList) "b".toList, "y".toList)], none) ∧
    gatherModules "./".toList (.ok exampleTree) =
      ([("a".toList, "x".toList), ("sub/b".toList, "y".toList)], none) ∧
    gatherModules ".".toList (.ok exampleTree) =
      ([("a".toList, "x".toList), ("sub/b".toList, "y".toList)], none) ∧
    gatherModules "/abs/proj".toList (.ok exampleTree) =
      ([("/abs/proj/a".toList, "x".toList), ("/abs/proj/sub/b".toList, "y".toList)], none) := by
  refine ⟨?_, by decide, by decide, by decide⟩
  obtain ⟨x, hx, hj⟩ := Join_plainName root
  obtain ⟨x2, hx2, hj2⟩ := Join_plainName (Join root "sub".toList)
  have ea : Ext (Join root "a.js".toList) = ".js".toList := by
    rw [Ext_Join root _ (by decide)]; decide
  have er : Ext (Join root "readme.txt".toList) ≠ ".js".toList := by
    rw [Ext_Join root _ (by decide)]; decide
  have eb : Ext (Join (Join root "sub".toList) "b.js".toList) = ".js".toList := by
    rw [Ext_Join _ _ (by decide)]; decide
  have ja : Join root "a.js".toList = Join root "a".toList ++ ".js".toList := by
    rw [hj _ (by decide), hj _ (by decide)]; simp
  have jb : Join (Join root "sub".toList) "b.js".toList =
      Join (Join root "sub".toList) "b".toList ++ ".js".toList := by
    rw [hj2 _ (by decide), hj2 _ (by decide)]; simp
  have na : ReplaceAll (Join root "a.js".toList) (Ext (Join root "a.js".toList)) [] =
      Join root "a".toList := by
    rw [ea, ja]; exact ReplaceAll_only_suffix _ h1
  have nb : ReplaceAll (Join (Join root "sub".toList) "b.js".toList)
      (Ext (Join (Join root "sub".toList) "b.js".toList)) [] =
      Join (Join root "sub".toList) "b".toList := by
    rw [eb, jb]; exact ReplaceAll_only_suffix _ h2
  have hne : Join root "a".toList ≠ Join (Join root "sub".toList) "b".toList := by
    rw [hj _ (by decide), hj2 _ (by decide)]
    intro he
    have := congrArg List.reverse he
    simp at this
  have hread : ∀ e ∈ walkList root exampleTree, readable e := by
    intro e he
    simp only [walkList, walkListEntries, exampleTree, List.mem_cons, List.mem_append,
      List.mem_singleton, List.not_mem_nil, or_false] at he
    rcases he with rfl | rfl | rfl | rfl | rfl <;> simp [readable]
  rw [gatherModules_readable root exampleTree hread]
  have c1 : ∀ m : Modules, collect m (Join root "a.js".toList, Node.file (.ok "x".toList)) =
      m.set (Join root "a".toList) "x".toList := by
    intro m
    show (if Ext (Join root "a.js".toList) = ".js".toList then _ else _) = _
    rw [if_pos ea, na]
  have c2 : ∀ m : Modules,
      collect m (Join root "readme.txt".toList, Node.file (.ok "hello".toList)) = m := by
    intro m
    show (if Ext (Join root "readme.txt".toList) = ".js".toList then _ else _) = _
    rw [if_neg er]
  have c3 : ∀ m : Modules,
      collect m (Join (Join root "sub".toList) "b.js".toList, Node.file (.ok "y".toList)) =
        m.set (Join (Join root "sub".toList) "b".toList) "y".toList := by
    intro m
    show (if Ext (Join (Join root "sub".toList) "b.js".toList) = ".js".toList then _ else _) = _
    rw [if_pos eb, nb]
  have hfold : (walkList root exampleTree).foldl collect [] =
      [(Join root "a".toList, "x".toList),
        (Join (Join root "sub".toList) "b".toList, "y".toList)] := by
    simp only [walkList, walkListEntries, exampleTree, List.foldl_cons, List.foldl_nil,
      List.cons_append, List.nil_append, List.append_nil]
    rw [show ∀ m : Modules, collect m (root, Node.dir none _) = m from fun _ => rfl, c1, c2,
      show ∀ m : Modules, collect m (Join root "sub".toList, Node.dir none _) = m from fun _ => rfl,
      c3]
    show Modules.set [(Join root "a".toList, "x".toList)] _ _ = _
    rw [Modules.set, if_neg hne]
    rfl
  rw [hfold]

/-- Witness of C5 as amended: the default root `./`. -/
theorem C5_walk_path_names_witness :
    Join "./".toList "a".toList = "a".toList ∧
    Join (Join "./".toList "sub".toList) "b".toList = "sub/b".toList ∧
    gatherModules "./".toList (.ok exampleTree) =
      ([(Join "./".toList "a".toList, "x".toList),
        (Join (Join "./".toList "sub".toList) "b".toList, "y".toList)], none) :=
  ⟨by decide, by decide, (C5_walk_path_names "./".toList (by decide) (by decide)).1⟩

end Watcher
